import Mathlib

/-!
Shallow embedding of the portable-SIMD core (crates/core_simd).

A `Simd<T, N>` value is modelled lanewise as a list: a vector of `w`-bit
integer lanes is a `List Nat` of two's-complement bit patterns (residues
mod `2 ^ w`), a mask at the API level is a `List Bool`, and a full-width
mask register is a `List Int` whose lanes are the sentinels `0` / `-1`.
Operations that can panic, and the unchecked memory intrinsics whose
misuse is undefined behaviour, return `Option` (`none` = panic / UB).
-/

namespace PortableSimd

/-- Rust `Simd::from_slice` (vector.rs): asserts `slice.len() >= LANES`
(`none` models the panic with the length error) and then reads the first
`LANES` elements of the slice unchanged. -/
def fromSlice {α : Type} (lanes : Nat) (slice : List α) : Option (List α) :=
  if lanes ≤ slice.length then some (slice.take lanes) else none

/-- Wrapping addition of two `w`-bit lanes, on two's-complement bit
patterns represented as residues mod `2 ^ w` (the `add` primitive declared
in intrinsics.rs). -/
def wrappingAdd (w : Nat) (a b : Nat) : Nat := (a + b) % 2 ^ w

/-- Modelled from the spec: the lanewise `+` operator on integer vectors
(the `impl Add for Simd` is not among the source files; intrinsics.rs
declares the `simd_add` primitive and the `Simd` doc states the integer
operations "are also inherently wrapping", with no overflow warning even
in debug builds). Each pair of lanes is combined with the wrapping add
primitive; the model is total, so no lane can trap or panic. -/
def simdAdd (w : Nat) (a b : List Nat) : List Nat := List.zipWith (wrappingAdd w) a b

/-- Rust `Mask::from_array` (masks.rs): the bool array is reinterpreted as
bytes (`true = 1`, `false = 0`), compared `!= 0` by the comparison
primitive into sentinel lanes (`-1` where true), and cast to the mask
element width. -/
def maskFromArrayInt (b : List Bool) : List Int :=
  (b.map fun x => if x then (1 : Nat) else 0).map fun byte =>
    if byte ≠ 0 then (-1 : Int) else 0

/-- Rust `Mask::to_array` (masks.rs): the sentinel lanes are converted to
`i8` and bit-anded with `1`, and the resulting bytes are reinterpreted as
bools; the low bit of a lane is its value mod 2. -/
def maskToArrayInt (v : List Int) : List Bool := v.map fun x => decide (x.emod 2 = 1)

/-- Full-width `mask_impl` (masks/full_masks.rs): the mask stores the
sentinel vector itself, so `from_int_unchecked` is the identity. -/
def fullFromInt (v : List Int) : List Int := v

/-- Full-width `mask_impl` (masks/full_masks.rs): `to_int` returns the
stored sentinel vector. -/
def fullToInt (v : List Int) : List Int := v

/-- Modelled from the spec: the packed-bitmask `mask_impl`
(masks/bitmask.rs keeps only the representation; its conversions are not
among the source files). One bit per lane, LSB first, unused high bits
zero: lane `i` of the sentinel vector becomes bit `i` of the backing
integer. -/
def bitmaskFromInt : List Int → Nat
  | [] => 0
  | x :: xs => (if x = 0 then 0 else 1) + 2 * bitmaskFromInt xs

/-- Modelled from the spec: the packed-bitmask `mask_impl` conversion back
to sentinels, expanding bit `i` (LSB first) of the backing integer into
the sentinel `-1` / `0` of lane `i`. -/
def bitmaskToInt : Nat → Nat → List Int
  | 0, _ => []
  | n + 1, bits => (if bits % 2 = 1 then (-1 : Int) else 0) :: bitmaskToInt n (bits / 2)

/-- Rust `Mask::from_array` followed by `Mask::to_array` when `mask_impl`
is the full-width encoding. -/
def maskRoundtripFull (b : List Bool) : List Bool :=
  maskToArrayInt (fullToInt (fullFromInt (maskFromArrayInt b)))

/-- Rust `Mask::from_array` followed by `Mask::to_array` when `mask_impl`
is the packed-bitmask encoding. -/
def maskRoundtripBitmask (b : List Bool) : List Bool :=
  maskToArrayInt (bitmaskToInt b.length (bitmaskFromInt (maskFromArrayInt b)))

/-- Rust expression `idxs.simd_lt(Simd::splat(slice.len()))` inside
`Simd::gather_select` (vector.rs, via the comparison primitive of
ord.rs): the lanewise in-bounds mask. -/
def simdLtLen (idxs : List Nat) (len : Nat) : List Bool :=
  idxs.map fun i => decide (i < len)

/-- Lanewise mask AND at the API level (the `enable & in_bounds`
conjunction of vector.rs). -/
def maskAnd (a b : List Bool) : List Bool := List.zipWith and a b

/-- Rust `Mask::splat` at the API level. -/
def maskSplat (lanes : Nat) (b : Bool) : List Bool := List.replicate lanes b

/-- Modelled from the spec: the `simd_gather` primitive (its extern
declaration falls in the truncated part of intrinsics.rs), as used by
`gather_select_ptr` / `gather_select_unchecked` of vector.rs: an enabled
lane reads `slice[idxs[lane]]` — `none` models the undefined behaviour of
an enabled out-of-bounds read — and a disabled lane takes the passthrough
lane without any read. -/
def gatherUnchecked {α : Type} (slice : List α) :
    List Bool → List Nat → List α → Option (List α)
  | [], [], [] => some []
  | e :: es, i :: idxt, o :: os =>
    match (if e then slice.get? i else some o), gatherUnchecked slice es idxt os with
    | some v, some rest => some (v :: rest)
    | _, _ => none
  | _, _, _ => none

/-- Rust `Simd::gather_select` (vector.rs): conjoins the caller's mask
with the computed in-bounds mask, then calls the unchecked gather. -/
def gatherSelect {α : Type} (slice : List α) (enable : List Bool) (idxs : List Nat)
    (orv : List α) : Option (List α) :=
  gatherUnchecked slice (maskAnd enable (simdLtLen idxs slice.length)) idxs orv

/-- Rust `Simd::gather_or` (vector.rs): `gather_select` with an all-true
mask. -/
def gatherOr {α : Type} (slice : List α) (idxs : List Nat) (orv : List α) :
    Option (List α) :=
  gatherSelect slice (maskSplat orv.length true) idxs orv

/-- Rust `Simd::gather_or_default` (vector.rs): `gather_or` with the
element type's default value (zero for the numeric element kinds)
splatted as the fallback vector. -/
def gatherOrDefault {α : Type} (slice : List α) (idxs : List Nat) (d : α) :
    Option (List α) :=
  gatherOr slice idxs (List.replicate idxs.length d)

/-- Modelled from the spec: `Simd::scatter` (vector.rs ends immediately
after its doc comment, so the body is not among the source files). Per
the spec and that doc comment, each in-bounds lane stores `values[lane]`
at `buf[idxs[lane]]`, the stores happening in lane order so that of
colliding lanes the highest-numbered one is the value finally observed;
an out-of-bounds lane stores nothing. -/
def scatter {α : Type} : List α → List Nat → List α → List α
  | [], _, buf => buf
  | _, [], buf => buf
  | v :: vs, i :: idxt, buf => scatter vs idxt (if i < buf.length then buf.set i v else buf)

/-- Value written last to position `j` by a scatter: the value of the
highest-numbered lane whose index is `j`, if any lane hits `j`. -/
def lastHit {α : Type} : List α → List Nat → Nat → Option α
  | v :: vs, i :: idxt, j =>
    (lastHit vs idxt j).orElse fun _ => if i = j then some v else none
  | _, _, _ => none

/-- Rust `Which` (swizzle.rs): a source selector for `Swizzle2`. -/
inductive Which where
  | first (i : Nat)
  | second (i : Nat)
deriving DecidableEq

/-- Lane index a `Which` selector refers to, within its own input. -/
def Which.sourceIndex : Which → Nat
  | .first i => i
  | .second i => i

/-- Rust `SwizzleImpl::INDEX_IMPL` (swizzle.rs): const evaluation of the
`u32` index table. Each entry must survive the `usize → u32 → usize`
round trip and be below the input lane count; `none` models the
const-evaluation `assert!` failure, which happens before any vector
operation executes. -/
def indexImpl (inputLanes : Nat) : List Nat → Option (List Nat)
  | [] => some []
  | i :: rest =>
    if i % 2 ^ 32 = i then
      if i < inputLanes then
        match indexImpl inputLanes rest with
        | some tbl => some (i :: tbl)
        | none => none
      else none
    else none

/-- Check of one `Which` entry during `Swizzle2Impl::INDEX_IMPL` const
evaluation (swizzle.rs): the selector must be in range of its input lane
count, and a `Second` index is offset by the input lane count (lanes are
numbered through the concatenation of the two inputs) before the `u32`
round trip is checked. -/
def which2Index (inputLanes : Nat) : Which → Option Nat
  | .first i =>
    if i < inputLanes then
      if i % 2 ^ 32 = i then some i else none
    else none
  | .second i =>
    if i < inputLanes then
      if (i + inputLanes) % 2 ^ 32 = i + inputLanes then some (i + inputLanes)
      else none
    else none

/-- Rust `Swizzle2Impl::INDEX_IMPL` (swizzle.rs): const evaluation of the
two-input `u32` index table, failing on the first invalid selector. -/
def index2Impl (inputLanes : Nat) : List Which → Option (List Nat)
  | [] => some []
  | w :: rest =>
    match which2Index inputLanes w, index2Impl inputLanes rest with
    | some k, some tbl => some (k :: tbl)
    | _, _ => none

/-- Modelled from the spec: the `simd_shuffle` primitive (an external
primitive; swizzle.rs only passes it a validated `u32` table). Output
lane `k` is lane `tbl[k]` of the concatenation of the two inputs; `none`
models an out-of-range table entry, which a validated table never
produces. -/
def simdShuffle {α : Type} (a b : List α) : List Nat → Option (List α)
  | [] => some []
  | i :: rest =>
    match (a ++ b).get? i, simdShuffle a b rest with
    | some x, some xs => some (x :: xs)
    | _, _ => none

/-- Rust `Swizzle::swizzle` (swizzle.rs): const-evaluates the index table
(failing there on any out-of-range entry), then shuffles the vector with
itself. -/
def swizzleRun {α : Type} (v : List α) (index : List Nat) : Option (List α) :=
  match indexImpl v.length index with
  | none => none
  | some tbl => simdShuffle v v tbl

/-- Rust `Swizzle2::swizzle2` (swizzle.rs): const-evaluates the two-input
index table, then shuffles the concatenated pair. -/
def swizzle2Run {α : Type} (a b : List α) (index : List Which) : Option (List α) :=
  match index2Impl a.length index with
  | none => none
  | some tbl => simdShuffle a b tbl

/-- Comparison primitive `simd_eq` on sentinel vectors, at the Bool
level, as `Sealed::valid` (masks.rs) uses it. -/
def simdEqInt (a b : List Int) : List Bool :=
  List.zipWith (fun x y => decide (x = y)) a b

/-- Lanewise mask OR at the API level. -/
def maskOr (a b : List Bool) : List Bool := List.zipWith or a b

/-- Rust `Mask::all` on an API-level mask. -/
def allLanes (m : List Bool) : Bool := m.all id

/-- Rust `Sealed::valid` (masks.rs): a sentinel vector is a valid mask
when every lane equals `0` or `-1`, computed as
`(value.simd_eq(Simd::splat(0)) | value.simd_eq(Simd::splat(-1))).all()`. -/
def valid (v : List Int) : Bool :=
  allLanes (maskOr (simdEqInt v (List.replicate v.length 0))
    (simdEqInt v (List.replicate v.length (-1))))

/-- Full-width `mask_impl::Mask::splat` (masks/full_masks.rs): every lane
becomes `T::TRUE = -1` or `T::FALSE = 0`. -/
def maskSplatInt (lanes : Nat) (b : Bool) : List Int :=
  List.replicate lanes (if b then (-1 : Int) else 0)

/-- Comparison primitive (`simd_lt` of intrinsics.rs, wrapped unchanged
by ord.rs): produces a sentinel vector, `-1` where the comparison holds
and `0` elsewhere. -/
def simdLtInt (a b : List Int) : List Int :=
  List.zipWith (fun x y => if x < y then (-1 : Int) else 0) a b

/-- Modelled from the spec: the lanewise boolean AND on full-width masks
(its `impl` falls in the truncated part of full_masks.rs); it combines
the sentinel vectors bitwise. -/
def maskLand (a b : List Int) : List Int := List.zipWith Int.land a b

/-- Modelled from the spec: the lanewise boolean OR on full-width masks,
bitwise on the sentinel vectors. -/
def maskLor (a b : List Int) : List Int := List.zipWith Int.lor a b

/-- Modelled from the spec: the lanewise boolean XOR on full-width masks,
bitwise on the sentinel vectors. -/
def maskLxor (a b : List Int) : List Int := List.zipWith Int.xor a b

/-- Modelled from the spec: the lanewise boolean NOT on full-width masks,
bitwise complement of the sentinel vector. -/
def maskLnot (a : List Int) : List Int := a.map Int.lnot

/-- Rust `Mask::set`, the checked per-lane mutator — modelled from the
spec for the bounds check (masks.rs is truncated before the checked
accessors; `set_unchecked` of full_masks.rs writes the sentinel): `none`
models the panic on an out-of-range lane index. -/
def maskSet (m : List Int) (lane : Nat) (b : Bool) : Option (List Int) :=
  if lane < m.length then some (m.set lane (if b then (-1 : Int) else 0)) else none

/-- A model of an `f32` value adequate for the conversion and reduction
semantics under study: a finite value is carried as its exact rational
value and the special values are explicit. None of the modelled
operations create new finite values, so no rounding is involved. -/
inductive F32 where
  | finite (q : ℚ)
  | inf
  | neginf
  | nan
deriving DecidableEq

/-- Truncation of a rational toward zero. -/
def truncRat (q : ℚ) : Int := if 0 ≤ q then ⌊q⌋ else ⌈q⌉

/-- Modelled from the spec: the `simd_as` conversion primitive for
`f32 → i32` lanes (`Simd::cast` in vector.rs calls it, and its doc fixes
the semantics; the intrinsic's declaration falls in the truncated part of
intrinsics.rs). Truncates toward zero, saturates at `i32::MIN` /
`i32::MAX` for out-of-range or infinite values, and maps NaN to zero. -/
def f32AsI32 : F32 → Int
  | .nan => 0
  | .inf => 2 ^ 31 - 1
  | .neginf => -2 ^ 31
  | .finite q =>
    if truncRat q > 2 ^ 31 - 1 then 2 ^ 31 - 1
    else if truncRat q < -2 ^ 31 then -2 ^ 31
    else truncRat q

/-- Rust `Simd::cast::<i32>` on an `f32` vector (vector.rs): the scalar
conversion applied to each lane independently. -/
def castF32I32 (v : List F32) : List Int := v.map f32AsI32

/-- Order on non-NaN `F32` values (`-inf` below every finite value, `inf`
above, finite values by value); `false` whenever either side is NaN. -/
def F32.fle : F32 → F32 → Bool
  | .nan, _ => false
  | _, .nan => false
  | .neginf, _ => true
  | _, .inf => true
  | .inf, _ => false
  | .finite _, .neginf => false
  | .finite a, .finite b => decide (a ≤ b)

/-- Binary max in the IEEE `maxNum` style the reduction folds with: if
one operand is NaN the other operand is returned. -/
def fmaxNum (x y : F32) : F32 :=
  if x = .nan then y else if y = .nan then x else if F32.fle x y then y else x

/-- Binary min in the IEEE `minNum` style. -/
def fminNum (x y : F32) : F32 :=
  if x = .nan then y else if y = .nan then x else if F32.fle y x then y else x

/-- Modelled from the spec: `SimdFloat::reduce_max` (elements/float.rs
keeps only the trait declaration and its doc; the impl bodies are not
among the source files). A NaN lane is skipped unless every lane is NaN,
in which case the result is NaN; lane counts are at least 1. -/
def reduceMax : List F32 → F32
  | [] => .nan
  | [x] => x
  | x :: xs => fmaxNum x (reduceMax xs)

/-- Modelled from the spec: `SimdFloat::reduce_min`, symmetrically. -/
def reduceMin : List F32 → F32
  | [] => .nan
  | [x] => x
  | x :: xs => fminNum x (reduceMin xs)

/-! ## General list lemmas shared by the claim proofs -/

theorem get?_zipWith {α β γ : Type} (f : α → β → γ) (da : α) (db : β) :
    ∀ (a : List α) (b : List β) (i : Nat), i < a.length → i < b.length →
      (List.zipWith f a b).get? i = some (f (a.getD i da) (b.getD i db)) := by
  intro a
  induction a with
  | nil => intro b i hi _; simp at hi
  | cons x xs ih =>
    intro b i hi hib
    cases b with
    | nil => simp at hib
    | cons y ys =>
      cases i with
      | zero => simp [List.zipWith]
      | succ j =>
        simp only [List.zipWith, List.getD_cons_succ]
        exact ih ys j (by simpa using hi) (by simpa using hib)

theorem mem_zipWith_of_closure {α β γ : Type} {f : α → β → γ}
    {A : α → Prop} {B : β → Prop} {P : γ → Prop}
    (hf : ∀ x y, A x → B y → P (f x y)) :
    ∀ (a : List α) (b : List β), (∀ x ∈ a, A x) → (∀ y ∈ b, B y) →
      ∀ z ∈ List.zipWith f a b, P z := by
  intro a
  induction a with
  | nil => intro b _ _ z hz; simp at hz
  | cons x xs ih =>
    intro b ha hb z hz
    cases b with
    | nil => simp at hz
    | cons y ys =>
      simp only [List.zipWith, List.mem_cons] at hz
      rcases hz with rfl | hz
      · exact hf x y (ha x (by simp)) (hb y (by simp))
      · exact ih ys (fun u hu => ha u (by simp [hu])) (fun u hu => hb u (by simp [hu])) z hz

/-- C5: the lanewise `f32 → i32` cast truncates toward zero, saturates at
`i32::MIN` / `i32::MAX` for out-of-range or infinite values, maps NaN to
zero, converts each lane independently, and on
`[1.9, -4.5, +inf, NaN]` yields `[1, -4, i32::MAX, 0]`. -/
theorem cast_f32_i32_saturates :
    castF32I32 [F32.finite (19 / 10), F32.finite (-45 / 10), F32.inf, F32.nan] =
      [1, -4, 2 ^ 31 - 1, 0] ∧
    (∀ (v : List F32) (i : Nat), (castF32I32 v).get? i = (v.get? i).map f32AsI32) ∧
    (∀ q : ℚ, -2 ^ 31 ≤ truncRat q → truncRat q ≤ 2 ^ 31 - 1 →
      f32AsI32 (.finite q) = truncRat q) ∧
    (∀ q : ℚ, 2 ^ 31 - 1 < truncRat q → f32AsI32 (.finite q) = 2 ^ 31 - 1) ∧
    (∀ q : ℚ, truncRat q < -2 ^ 31 → f32AsI32 (.finite q) = -2 ^ 31) ∧
    (∀ q : ℚ, 0 ≤ q → truncRat q = ⌊q⌋) ∧
    (∀ q : ℚ, q < 0 → truncRat q = ⌈q⌉) ∧
    f32AsI32 .nan = 0 ∧ f32AsI32 .inf = 2 ^ 31 - 1 ∧ f32AsI32 .neginf = -2 ^ 31 := by
  have h19 : truncRat (19 / 10) = 1 := by
    rw [truncRat, if_pos (by norm_num)]
    norm_num
  have h45 : truncRat (-45 / 10) = -4 := by
    rw [truncRat, if_neg (by norm_num)]
    rw [Int.ceil_eq_iff]
    norm_num
  refine ⟨?_, ?_, ?_, ?_, ?_, ?_, ?_, rfl, rfl, rfl⟩
  · simp only [castF32I32, List.map, f32AsI32, h19, h45]
    norm_num
  · intro v i
    simp [castF32I32]
  · intro q hlo hhi
    rw [f32AsI32, if_neg (by omega), if_neg (by omega)]
  · intro q hhi
    rw [f32AsI32, if_pos (by omega)]
  · intro q hlo
    rw [f32AsI32, if_neg (by omega), if_pos (by omega)]
  · intro q hq
    rw [truncRat, if_pos hq]
  · intro q hq
    rw [truncRat, if_neg (by exact not_le.mpr hq)]

/-- Reflexivity of the non-NaN float order. -/
theorem fle_refl (x : F32) (hx : x ≠ .nan) : F32.fle x x = true := by
  cases x <;> simp_all [F32.fle]

/-- A true comparison means neither side is NaN. -/
theorem fle_ne_nan {x y : F32} (h : F32.fle x y = true) : x ≠ .nan ∧ y ≠ .nan := by
  cases x <;> cases y <;> simp_all [F32.fle]

/-- Totality of the non-NaN float order. -/
theorem fle_total (x y : F32) (hx : x ≠ .nan) (hy : y ≠ .nan) :
    F32.fle x y = true ∨ F32.fle y x = true := by
  cases x <;> cases y <;> simp_all [F32.fle] <;> exact le_total _ _

/-- Transitivity of the non-NaN float order. -/
theorem fle_trans {x y z : F32} (h1 : F32.fle x y = true) (h2 : F32.fle y z = true) :
    F32.fle x z = true := by
  cases x <;> cases y <;> cases z <;> simp_all [F32.fle] <;> exact h1.trans h2

/-- `fmaxNum` is NaN exactly when both operands are. -/
theorem fmaxNum_eq_nan_iff (x y : F32) : fmaxNum x y = .nan ↔ (x = .nan ∧ y = .nan) := by
  rw [fmaxNum]
  by_cases hx : x = .nan
  · simp [hx]
  · rw [if_neg hx]
    by_cases hy : y = .nan
    · simp [hx, hy]
    · rw [if_neg hy]
      split <;> simp [hx, hy]

/-- `fmaxNum` returns one of its operands. -/
theorem fmaxNum_cases (x y : F32) : fmaxNum x y = x ∨ fmaxNum x y = y := by
  rw [fmaxNum]
  split
  · right; rfl
  · split
    · left; rfl
    · split
      · right; rfl
      · left; rfl

/-- `fminNum` is NaN exactly when both operands are. -/
theorem fminNum_eq_nan_iff (x y : F32) : fminNum x y = .nan ↔ (x = .nan ∧ y = .nan) := by
  rw [fminNum]
  by_cases hx : x = .nan
  · simp [hx]
  · rw [if_neg hx]
    by_cases hy : y = .nan
    · simp [hx, hy]
    · rw [if_neg hy]
      split <;> simp [hx, hy]

/-- `fminNum` returns one of its operands. -/
theorem fminNum_cases (x y : F32) : fminNum x y = x ∨ fminNum x y = y := by
  rw [fminNum]
  split
  · right; rfl
  · split
    · left; rfl
    · split
      · right; rfl
      · left; rfl

/-- The max reduction returns one of the lanes. -/
theorem reduceMax_mem : ∀ v : List F32, v ≠ [] → reduceMax v ∈ v := by
  intro v
  induction v with
  | nil => intro h; exact absurd rfl h
  | cons x xs ih =>
    intro _
    cases xs with
    | nil => simp [reduceMax]
    | cons y ys =>
      have heq : reduceMax (x :: y :: ys) = fmaxNum x (reduceMax (y :: ys)) := rfl
      rw [heq]
      rcases fmaxNum_cases x (reduceMax (y :: ys)) with h | h
      · rw [h]; simp
      · rw [h]
        exact List.mem_cons_of_mem x (ih (by simp))

/-- The min reduction returns one of the lanes. -/
theorem reduceMin_mem : ∀ v : List F32, v ≠ [] → reduceMin v ∈ v := by
  intro v
  induction v with
  | nil => intro h; exact absurd rfl h
  | cons x xs ih =>
    intro _
    cases xs with
    | nil => simp [reduceMin]
    | cons y ys =>
      have heq : reduceMin (x :: y :: ys) = fminNum x (reduceMin (y :: ys)) := rfl
      rw [heq]
      rcases fminNum_cases x (reduceMin (y :: ys)) with h | h
      · rw [h]; simp
      · rw [h]
        exact List.mem_cons_of_mem x (ih (by simp))

/-- The max reduction is NaN exactly when every lane is. -/
theorem reduceMax_eq_nan_iff : ∀ v : List F32, v ≠ [] →
    (reduceMax v = .nan ↔ ∀ x ∈ v, x = .nan) := by
  intro v
  induction v with
  | nil => intro h; exact absurd rfl h
  | cons x xs ih =>
    intro _
    cases xs with
    | nil => simp [reduceMax]
    | cons y ys =>
      have heq : reduceMax (x :: y :: ys) = fmaxNum x (reduceMax (y :: ys)) := rfl
      rw [heq, fmaxNum_eq_nan_iff, ih (by simp)]
      simp [List.forall_mem_cons]

/-- The min reduction is NaN exactly when every lane is. -/
theorem reduceMin_eq_nan_iff : ∀ v : List F32, v ≠ [] →
    (reduceMin v = .nan ↔ ∀ x ∈ v, x = .nan) := by
  intro v
  induction v with
  | nil => intro h; exact absurd rfl h
  | cons x xs ih =>
    intro _
    cases xs with
    | nil => simp [reduceMin]
    | cons y ys =>
      have heq : reduceMin (x :: y :: ys) = fminNum x (reduceMin (y :: ys)) := rfl
      rw [heq, fminNum_eq_nan_iff, ih (by simp)]
      simp [List.forall_mem_cons]

/-- The max reduction bounds every non-NaN lane from above. -/
theorem reduceMax_ub : ∀ v : List F32, ∀ x ∈ v, x ≠ .nan →
    F32.fle x (reduceMax v) = true := by
  intro v
  induction v with
  | nil => intro x hx; simp at hx
  | cons a l ih =>
    intro x hx hxn
    cases l with
    | nil =>
      rcases List.mem_singleton.mp hx with rfl
      exact fle_refl x hxn
    | cons b m =>
      have heq : reduceMax (a :: b :: m) = fmaxNum a (reduceMax (b :: m)) := rfl
      rw [heq]
      rcases List.mem_cons.mp hx with rfl | hxm
      · rw [fmaxNum, if_neg hxn]
        by_cases hrn : reduceMax (b :: m) = .nan
        · rw [if_pos hrn]
          exact fle_refl x hxn
        · rw [if_neg hrn]
          split
          · next hle => exact hle
          · exact fle_refl x hxn
      · have hxr : F32.fle x (reduceMax (b :: m)) = true := ih x hxm hxn
        have hrnn : reduceMax (b :: m) ≠ .nan := (fle_ne_nan hxr).2
        rw [fmaxNum]
        by_cases han : a = .nan
        · rw [if_pos han]
          exact hxr
        · rw [if_neg han, if_neg hrnn]
          split
          · exact hxr
          · next hnle =>
            rcases fle_total a (reduceMax (b :: m)) han hrnn with h | h
            · exact absurd h hnle
            · exact fle_trans hxr h

/-- The min reduction bounds every non-NaN lane from below. -/
theorem reduceMin_lb : ∀ v : List F32, ∀ x ∈ v, x ≠ .nan →
    F32.fle (reduceMin v) x = true := by
  intro v
  induction v with
  | nil => intro x hx; simp at hx
  | cons a l ih =>
    intro x hx hxn
    cases l with
    | nil =>
      rcases List.mem_singleton.mp hx with rfl
      exact fle_refl x hxn
    | cons b m =>
      have heq : reduceMin (a :: b :: m) = fminNum a (reduceMin (b :: m)) := rfl
      rw [heq]
      rcases List.mem_cons.mp hx with rfl | hxm
      · rw [fminNum, if_neg hxn]
        by_cases hrn : reduceMin (b :: m) = .nan
        · rw [if_pos hrn]
          exact fle_refl x hxn
        · rw [if_neg hrn]
          split
          · next hle => exact hle
          · exact fle_refl x hxn
      · have hxr : F32.fle (reduceMin (b :: m)) x = true := ih x hxm hxn
        have hrnn : reduceMin (b :: m) ≠ .nan := (fle_ne_nan hxr).1
        rw [fminNum]
        by_cases han : a = .nan
        · rw [if_pos han]
          exact hxr
        · rw [if_neg han, if_neg hrnn]
          split
          · exact hxr
          · next hnle =>
            rcases fle_total (reduceMin (b :: m)) a hrnn han with h | h
            · exact absurd h hnle
            · exact fle_trans h hxr

/-- C6: float `reduce_max` / `reduce_min` return NaN exactly when every
lane is NaN; otherwise the result is one of the lanes and bounds every
non-NaN lane (the max / min over the non-NaN lanes, NaN lanes skipped);
in particular on `[1.0, NaN]` both return `1.0`, and on `[NaN, NaN]` both
return NaN. -/
theorem reduce_minmax_nan_skipping :
    (∀ v : List F32, v ≠ [] → (reduceMax v = .nan ↔ ∀ x ∈ v, x = .nan)) ∧
    (∀ v : List F32, v ≠ [] → (reduceMin v = .nan ↔ ∀ x ∈ v, x = .nan)) ∧
    (∀ v : List F32, v ≠ [] → reduceMax v ∈ v ∧ reduceMin v ∈ v) ∧
    (∀ v : List F32, ∀ x ∈ v, x ≠ .nan → F32.fle x (reduceMax v) = true) ∧
    (∀ v : List F32, ∀ x ∈ v, x ≠ .nan → F32.fle (reduceMin v) x = true) ∧
    reduceMax [F32.finite 1, F32.nan] = F32.finite 1 ∧
    reduceMax [F32.nan, F32.nan] = F32.nan ∧
    reduceMin [F32.finite 1, F32.nan] = F32.finite 1 ∧
    reduceMin [F32.nan, F32.nan] = F32.nan := by
  refine ⟨reduceMax_eq_nan_iff, reduceMin_eq_nan_iff,
    fun v hv => ⟨reduceMax_mem v hv, reduceMin_mem v hv⟩,
    reduceMax_ub, reduceMin_lb, ?_, ?_, ?_, ?_⟩ <;>
    simp [reduceMax, reduceMin, fmaxNum, fminNum]

end PortableSimd

namespace PortableSimd

/-- C9: `Simd::from_slice` panics with the length error exactly when the
slice is shorter than the lane count, and otherwise returns the vector of
the slice's first `LANES` elements, each element unchanged. -/
theorem from_slice_spec {α : Type} (lanes : Nat) (slice : List α) :
    (fromSlice lanes slice = none ↔ slice.length < lanes) ∧
    (lanes ≤ slice.length →
      fromSlice lanes slice = some (slice.take lanes) ∧
      ∀ i, i < lanes → (slice.take lanes).get? i = slice.get? i) := by
  refine ⟨?_, fun h => ⟨by simp [fromSlice, h], fun i hi => List.get?_take hi⟩⟩
  rcases Nat.lt_or_ge slice.length lanes with hlt | hge
  · have hn : ¬ lanes ≤ slice.length := by omega
    simp [fromSlice, hn, hlt]
  · simp [fromSlice, hge]

/-- C7: lanewise `+` on `w`-bit integer vectors: every lane is the sum of
the corresponding input lanes reduced mod `2 ^ w` (two's-complement
wrapping); the model is total, so no lane overflow can trap, panic or set
a flag; each result lane is again a valid `w`-bit pattern; and the sum is
exact whenever it does not overflow. -/
theorem add_wraps (w : Nat) (a b : List Nat) (hlen : a.length = b.length) :
    (simdAdd w a b).length = a.length ∧
    (∀ i, i < a.length →
      (simdAdd w a b).get? i = some ((a.getD i 0 + b.getD i 0) % 2 ^ w)) ∧
    (∀ x ∈ simdAdd w a b, x < 2 ^ w) ∧
    (∀ i, i < a.length → a.getD i 0 + b.getD i 0 < 2 ^ w →
      (simdAdd w a b).get? i = some (a.getD i 0 + b.getD i 0)) := by
  have hget : ∀ i, i < a.length →
      (simdAdd w a b).get? i = some ((a.getD i 0 + b.getD i 0) % 2 ^ w) := by
    intro i hi
    exact get?_zipWith (wrappingAdd w) 0 0 a b i hi (hlen ▸ hi)
  refine ⟨?_, hget, ?_, ?_⟩
  · simp [simdAdd, List.length_zipWith, hlen]
  · refine mem_zipWith_of_closure (A := fun _ => True) (B := fun _ => True) ?_ a b
      (fun _ _ => trivial) (fun _ _ => trivial)
    intro x y _ _
    exact Nat.mod_lt _ (Nat.pos_pow_of_pos w (by omega))
  · intro i hi hsum
    rw [hget i hi, Nat.mod_eq_of_lt hsum]

/-- Witness for C7 at `w = 8`, `a = [250, 3]`, `b = [10, 4]`. -/
theorem add_wraps_witness :
    ([250, 3] : List Nat).length = ([10, 4] : List Nat).length ∧
    (simdAdd 8 [250, 3] [10, 4]).length = ([250, 3] : List Nat).length ∧
    simdAdd 8 [250, 3] [10, 4] = [4, 7] :=
  ⟨by decide, (add_wraps 8 [250, 3] [10, 4] (by decide)).1, by decide⟩

/-- C3: `Mask::from_array` followed by `Mask::to_array` reproduces every
boolean array losslessly, and identically through both mask encodings
(full-width sentinels and packed bitmask). -/
theorem mask_roundtrip_both_encodings (b : List Bool) :
    maskRoundtripFull b = b ∧ maskRoundtripBitmask b = b := by
  induction b with
  | nil => exact ⟨rfl, rfl⟩
  | cons x xs ih =>
    have hfull : maskRoundtripFull (x :: xs) = x :: maskRoundtripFull xs := by
      cases x <;> simp [maskRoundtripFull, maskFromArrayInt, maskToArrayInt,
        fullFromInt, fullToInt] <;> decide
    have hmod1 : ∀ r : Nat, (1 + 2 * r) % 2 = 1 := by intro r; omega
    have hdiv1 : ∀ r : Nat, (1 + 2 * r) / 2 = r := by intro r; omega
    have hmod0 : ∀ r : Nat, (0 + 2 * r) % 2 = 0 := by intro r; omega
    have hdiv0 : ∀ r : Nat, (0 + 2 * r) / 2 = r := by intro r; omega
    have hbit : maskRoundtripBitmask (x :: xs) = x :: maskRoundtripBitmask xs := by
      cases x <;>
        simp [maskRoundtripBitmask, maskFromArrayInt, maskToArrayInt,
          bitmaskFromInt, bitmaskToInt, hmod1, hdiv1, hmod0, hdiv0] <;>
        decide
    rw [hfull, hbit, ih.1, ih.2]
    exact ⟨rfl, rfl⟩

/-- Auxiliary form of `get?` through `getD` on an in-range index. -/
theorem get?_eq_getD {α : Type} (l : List α) (k : Nat) (d : α) (h : k < l.length) :
    l.get? k = some (l.getD k d) := by
  rw [List.getD_eq_get?]
  cases hh : l.get? k with
  | none => rw [List.get?_eq_none] at hh; omega
  | some v => rfl

/-- Core lemma on the gather primitive: whenever every enabled lane is in
bounds, the gather succeeds (performs no undefined read) and each lane is
the slice element at its index when enabled, the passthrough lane when
disabled. -/
theorem gatherUnchecked_spec {α : Type} (slice : List α) :
    ∀ (es : List Bool) (idxt : List Nat) (os : List α),
      es.length = os.length → idxt.length = os.length →
      (∀ k, k < os.length → es.getD k false = true → idxt.getD k 0 < slice.length) →
      ∃ out, gatherUnchecked slice es idxt os = some out ∧ out.length = os.length ∧
        ∀ k, k < os.length →
          out.get? k = if es.getD k false = true then slice.get? (idxt.getD k 0)
                       else os.get? k := by
  intro es
  induction es with
  | nil =>
    intro idxt os h1 h2 _
    cases os with
    | cons o os => simp at h1
    | nil =>
      cases idxt with
      | cons i it => simp at h2
      | nil => exact ⟨[], rfl, rfl, fun k hk => by simp at hk⟩
  | cons e es ih =>
    intro idxt os h1 h2 hbound
    cases os with
    | nil => simp at h1
    | cons o os =>
      cases idxt with
      | nil => simp at h2
      | cons i it =>
        obtain ⟨out, hout, hlen, hspec⟩ := ih it os (by simpa using h1) (by simpa using h2)
          (fun k hk hek => by
            have := hbound (k + 1) (by simp; omega) (by simpa using hek)
            simpa using this)
        cases e with
        | false =>
          refine ⟨o :: out, ?_, by simp [hlen], ?_⟩
          · simp [gatherUnchecked, hout]
          · intro k hk
            cases k with
            | zero => simp
            | succ j =>
              simp only [List.getD_cons_succ, List.get?_cons_succ]
              exact hspec j (by simpa using hk)
        | true =>
          have hi : i < slice.length := hbound 0 (by simp) (by simp)
          obtain ⟨v, hv⟩ : ∃ v, slice[i]? = some v := ⟨_, List.getElem?_eq_getElem hi⟩
          refine ⟨v :: out, ?_, by simp [hlen], ?_⟩
          · simp [gatherUnchecked, hv, hout]
          · intro k hk
            cases k with
            | zero => simp [hv]
            | succ j =>
              simp only [List.getD_cons_succ, List.get?_cons_succ]
              exact hspec j (by simpa using hk)

/-- C1: `Simd::gather_select` always succeeds — the caller's mask is
conjoined with the in-bounds mask before the unchecked gather, so a
disabled or out-of-bounds lane can never cause a read — and lane `i` of
the result is `slice[idxs[i]]` when `enable[i]` holds and `idxs[i]` is in
bounds, the fallback lane `or[i]` otherwise; and `Simd::gather_or` is
`gather_select` with an all-true mask. -/
theorem gather_select_correct {α : Type} (slice : List α) (enable : List Bool)
    (idxs : List Nat) (orv : List α)
    (h1 : enable.length = orv.length) (h2 : idxs.length = orv.length) :
    (∃ out, gatherSelect slice enable idxs orv = some out ∧ out.length = orv.length ∧
      ∀ i, i < orv.length →
        out.get? i =
          if enable.getD i false = true ∧ idxs.getD i 0 < slice.length
          then slice.get? (idxs.getD i 0) else orv.get? i) ∧
    gatherOr slice idxs orv = gatherSelect slice (maskSplat orv.length true) idxs orv := by
  refine ⟨?_, rfl⟩
  have hmlen : (maskAnd enable (simdLtLen idxs slice.length)).length = orv.length := by
    simp [maskAnd, simdLtLen, List.length_zipWith, h1, h2]
  have hgetm : ∀ k, k < orv.length →
      (maskAnd enable (simdLtLen idxs slice.length)).getD k false =
        (enable.getD k false && decide (idxs.getD k 0 < slice.length)) := by
    intro k hk
    have h1k : k < enable.length := by omega
    have h2k : k < (simdLtLen idxs slice.length).length := by
      simp [simdLtLen]; omega
    have hz := get?_zipWith and false false enable (simdLtLen idxs slice.length) k h1k h2k
    have hlt : (simdLtLen idxs slice.length).getD k false =
        decide (idxs.getD k 0 < slice.length) := by
      have hk2 : k < idxs.length := by omega
      rw [List.getD_eq_get?]
      simp only [simdLtLen, List.get?_map, get?_eq_getD idxs k 0 hk2, Option.map_some]
      rfl
    rw [List.getD_eq_get?, maskAnd, hz, hlt]
    rfl
  obtain ⟨out, hout, hlen, hspec⟩ :=
    gatherUnchecked_spec slice (maskAnd enable (simdLtLen idxs slice.length)) idxs orv
      hmlen h2
      (fun k hk hek => by
        rw [hgetm k hk] at hek
        have := (Bool.and_eq_true _ _).mp hek
        exact of_decide_eq_true this.2)
  refine ⟨out, hout, hlen, ?_⟩
  intro i hi
  rw [hspec i hi, hgetm i hi]
  simp only [Bool.and_eq_true, decide_eq_true_eq]

/-- Witness for C1 on `slice = [10, 11, 12]`, `enable = [true, false]`,
`idxs = [1, 5]`, fallback `[7, 8]`. -/
theorem gather_select_correct_witness :
    ([true, false] : List Bool).length = ([7, 8] : List Int).length ∧
    ([1, 5] : List Nat).length = ([7, 8] : List Int).length ∧
    gatherOr [10, 11, 12] [1, 5] ([7, 8] : List Int) =
      gatherSelect [10, 11, 12] (maskSplat 2 true) [1, 5] [7, 8] :=
  ⟨by decide, by decide,
    (gather_select_correct [10, 11, 12] [true, false] [1, 5] [7, 8]
      (by decide) (by decide)).2⟩

/-- C10: `Simd::gather_or_default` is `gather_or` with the element
default splatted as fallback: it always succeeds (no out-of-bounds read)
and lane `i` is `slice[idxs[i]]` when `idxs[i]` is in bounds, the default
value otherwise. -/
theorem gather_or_default_spec {α : Type} (slice : List α) (idxs : List Nat) (d : α) :
    gatherOrDefault slice idxs d = gatherOr slice idxs (List.replicate idxs.length d) ∧
    ∃ out, gatherOrDefault slice idxs d = some out ∧ out.length = idxs.length ∧
      ∀ i, i < idxs.length →
        out.get? i = if idxs.getD i 0 < slice.length
                     then slice.get? (idxs.getD i 0) else some d := by
  refine ⟨rfl, ?_⟩
  obtain ⟨out, hout, hlen, hspec⟩ :=
    (gather_select_correct slice (maskSplat (List.replicate idxs.length d).length true)
      idxs (List.replicate idxs.length d) (by simp [maskSplat]) (by simp)).1
  refine ⟨out, hout, by simpa using hlen, ?_⟩
  intro i hi
  have hi2 : i < (List.replicate idxs.length d).length := by simpa using hi
  rw [hspec i hi2]
  have hen : (maskSplat (List.replicate idxs.length d).length true).getD i false = true := by
    rw [List.getD_eq_get?]
    simp [maskSplat, List.getElem?_replicate, hi]
  have hor : (List.replicate idxs.length d).get? i = some d := by
    simp [List.getElem?_replicate, hi]
  rw [hen, hor]
  simp

/-- Scatter never changes the buffer's length. -/
theorem scatter_length {α : Type} :
    ∀ (vs : List α) (idxt : List Nat) (buf : List α),
      (scatter vs idxt buf).length = buf.length := by
  intro vs
  induction vs with
  | nil => intro idxt buf; cases idxt <;> simp [scatter]
  | cons v vs ih =>
    intro idxt buf
    cases idxt with
    | nil => simp [scatter]
    | cons i it =>
      show (scatter vs it (if i < buf.length then buf.set i v else buf)).length = buf.length
      rw [ih]
      split <;> simp

/-- Core lemma for scatter: position `j` of the result is the value of the
last lane that hits `j`, or the original buffer entry when no lane does. -/
theorem scatter_get? {α : Type} (j : Nat) :
    ∀ (vs : List α) (idxt : List Nat) (buf : List α),
      idxt.length = vs.length → j < buf.length →
      (scatter vs idxt buf).get? j = ((lastHit vs idxt j).orElse fun _ => buf.get? j) := by
  intro vs
  induction vs with
  | nil =>
    intro idxt buf h1 hj
    cases idxt with
    | cons i it => simp at h1
    | nil => simp [scatter, lastHit, Option.orElse]
  | cons v vs ih =>
    intro idxt buf h1 hj
    cases idxt with
    | nil => simp at h1
    | cons i it =>
      have hj2 : j < (if i < buf.length then buf.set i v else buf).length := by
        split <;> simpa using hj
      have hstep :
          (scatter (v :: vs) (i :: it) buf).get? j =
            ((lastHit vs it j).orElse fun _ =>
              (if i < buf.length then buf.set i v else buf).get? j) := by
        show (scatter vs it (if i < buf.length then buf.set i v else buf)).get? j = _
        exact ih it _ (by simpa using h1) hj2
      rw [hstep]
      have hcons : lastHit (v :: vs) (i :: it) j =
          ((lastHit vs it j).orElse fun _ => if i = j then some v else none) := rfl
      rw [hcons]
      cases h : lastHit vs it j with
      | some w => simp [Option.orElse]
      | none =>
        simp only [Option.orElse, Option.none_orElse]
        by_cases hij : i = j
        · have hlt : i < buf.length := by omega
          simp [hlt, hij, List.getElem?_set, hj]
        · split
          · simp [List.get?_set, hij]
          · simp [hij]

/-- Highest-lane characterization of `lastHit`: a hit is the value of an
actual lane whose index targets `j`, and no higher-numbered lane targets
`j`; no hit means no lane targets `j` at all. -/
theorem lastHit_spec {α : Type} :
    ∀ (vs : List α) (idxt : List Nat) (j : Nat), idxt.length = vs.length →
      (∀ v, lastHit vs idxt j = some v →
        ∃ lane, lane < vs.length ∧ idxt.get? lane = some j ∧
          vs.get? lane = some v ∧
          ∀ m, lane < m → m < idxt.length → idxt.get? m ≠ some j) ∧
      (lastHit vs idxt j = none → ∀ m, m < idxt.length → idxt.get? m ≠ some j) := by
  intro vs
  induction vs with
  | nil =>
    intro idxt j h1
    cases idxt with
    | cons i it => simp at h1
    | nil =>
      refine ⟨fun v hv => by simp [lastHit] at hv, fun _ m hm => by simp at hm⟩
  | cons v vs ih =>
    intro idxt j h1
    cases idxt with
    | nil => simp at h1
    | cons i it =>
      obtain ⟨ihsome, ihnone⟩ := ih it j (by simpa using h1)
      have hcons : lastHit (v :: vs) (i :: it) j =
          ((lastHit vs it j).orElse fun _ => if i = j then some v else none) := rfl
      constructor
      · intro w hw
        rw [hcons] at hw
        cases h : lastHit vs it j with
        | some u =>
          rw [h] at hw
          simp only [Option.orElse] at hw
          obtain ⟨lane, hl1, hl2, hl3, hl4⟩ := ihsome u h
          refine ⟨lane + 1, by simpa using Nat.succ_lt_succ hl1, by simpa using hl2,
            ?_, ?_⟩
          · cases hw; simpa using hl3
          · intro m hm1 hm2
            cases m with
            | zero => omega
            | succ m0 =>
              simpa using hl4 m0 (by omega) (by simpa using hm2)
        | none =>
          rw [h] at hw
          simp only [Option.orElse] at hw
          by_cases hij : i = j
          · rw [if_pos hij] at hw
            cases hw
            refine ⟨0, by simp, by simpa using hij, by simp, ?_⟩
            intro m hm1 hm2
            cases m with
            | zero => omega
            | succ m0 => simpa using ihnone h m0 (by simpa using hm2)
          · rw [if_neg hij] at hw
            cases hw
      · intro hn m hm
        rw [hcons] at hn
        cases h : lastHit vs it j with
        | some u => rw [h] at hn; simp [Option.orElse] at hn
        | none =>
          rw [h] at hn
          simp only [Option.orElse] at hn
          by_cases hij : i = j
          · rw [if_pos hij] at hn; cases hn
          · cases m with
            | zero => simpa using hij
            | succ m0 => simpa using ihnone h m0 (by simpa using hm)

/-- C2: scatter writes `values[lane]` to the buffer at `idxs[lane]` for
each in-bounds lane; position `j` of the result is the value of the
highest-numbered lane targeting `j` (deterministic last-lane-wins, the
model being a function), unchanged when no lane targets `j`; and
scattering `[10, 20]` at indices `[0, 0]` into a one-element buffer
leaves `20`. -/
theorem scatter_last_lane_wins {α : Type} (values : List α) (idxs : List Nat)
    (buf : List α) (hlen : idxs.length = values.length) :
    (scatter values idxs buf).length = buf.length ∧
    (∀ j, j < buf.length →
      (scatter values idxs buf).get? j =
        ((lastHit values idxs j).orElse fun _ => buf.get? j)) ∧
    (∀ j v, lastHit values idxs j = some v →
      ∃ lane, lane < values.length ∧ idxs.get? lane = some j ∧
        values.get? lane = some v ∧
        ∀ m, lane < m → m < idxs.length → idxs.get? m ≠ some j) ∧
    (∀ j, lastHit values idxs j = none →
      ∀ m, m < idxs.length → idxs.get? m ≠ some j) ∧
    scatter ([10, 20] : List Int) [0, 0] [99] = [20] := by
  refine ⟨scatter_length values idxs buf,
    fun j hj => scatter_get? j values idxs buf hlen hj,
    fun j v hv => (lastHit_spec values idxs j hlen).1 v hv,
    fun j hn => (lastHit_spec values idxs j hlen).2 hn,
    by decide⟩

/-- Witness for C2 at `values = [10, 20]`, `idxs = [0, 0]`, `buf = [99]`. -/
theorem scatter_last_lane_wins_witness :
    ([0, 0] : List Nat).length = ([10, 20] : List Int).length ∧
    scatter ([10, 20] : List Int) [0, 0] [99] = [20] :=
  ⟨by decide,
    (scatter_last_lane_wins ([10, 20] : List Int) [0, 0] [99] (by decide)).2.2.2.2⟩

/-- Const evaluation of a single-input index table fails whenever some
entry is not below the input lane count. -/
theorem indexImpl_oob {inputLanes : Nat} :
    ∀ index : List Nat, (∃ i ∈ index, inputLanes ≤ i) →
      indexImpl inputLanes index = none := by
  intro index
  induction index with
  | nil => rintro ⟨i, hi, _⟩; simp at hi
  | cons i rest ih =>
    rintro ⟨k, hk, hge⟩
    simp only [List.mem_cons] at hk
    rcases hk with rfl | hk
    · simp only [indexImpl]
      by_cases h32 : k % 2 ^ 32 = k
      · rw [if_pos h32, if_neg (Nat.not_lt.mpr hge)]
      · rw [if_neg h32]
    · simp only [indexImpl]
      by_cases h32 : i % 2 ^ 32 = i
      · rw [if_pos h32]
        by_cases hlt : i < inputLanes
        · rw [if_pos hlt, ih ⟨k, hk, hge⟩]
        · rw [if_neg hlt]
      · rw [if_neg h32]

/-- Const evaluation of a single-input index table succeeds and keeps the
table when every entry is in range (lane counts fit in `u32`). -/
theorem indexImpl_ok {inputLanes : Nat} (h32 : inputLanes ≤ 2 ^ 32) :
    ∀ index : List Nat, (∀ i ∈ index, i < inputLanes) →
      indexImpl inputLanes index = some index := by
  intro index
  induction index with
  | nil => intro _; rfl
  | cons i rest ih =>
    intro hall
    have hi : i < inputLanes := hall i (by simp)
    have hm : i % 2 ^ 32 = i := Nat.mod_eq_of_lt (by omega)
    simp only [indexImpl]
    rw [if_pos hm, if_pos hi, ih (fun k hk => hall k (by simp [hk]))]

/-- An out-of-range `Which` selector fails its const-evaluation check. -/
theorem which2Index_oob {inputLanes : Nat} (w : Which)
    (hge : inputLanes ≤ w.sourceIndex) : which2Index inputLanes w = none := by
  cases w with
  | first i =>
    simp only [Which.sourceIndex] at hge
    simp [which2Index, Nat.not_lt.mpr hge]
  | second i =>
    simp only [Which.sourceIndex] at hge
    simp [which2Index, Nat.not_lt.mpr hge]

/-- Const evaluation of a two-input index table fails whenever some
selector is not below the input lane count. -/
theorem index2Impl_oob {inputLanes : Nat} :
    ∀ index : List Which, (∃ w ∈ index, inputLanes ≤ w.sourceIndex) →
      index2Impl inputLanes index = none := by
  intro index
  induction index with
  | nil => rintro ⟨w, hw, _⟩; simp at hw
  | cons w rest ih =>
    rintro ⟨u, hu, hge⟩
    simp only [List.mem_cons] at hu
    rcases hu with rfl | hu
    · simp [index2Impl, which2Index_oob u hge]
    · cases hc : which2Index inputLanes w with
      | none => simp [index2Impl, hc]
      | some k => simp [index2Impl, hc, ih ⟨u, hu, hge⟩]

/-- The shuffle primitive on an everywhere-in-range table reads only the
first input and reproduces the table's selection lanewise. -/
theorem simdShuffle_spec {α : Type} (a b : List α) :
    ∀ tbl : List Nat, (∀ i ∈ tbl, i < a.length) →
      ∃ out, simdShuffle a b tbl = some out ∧ out.length = tbl.length ∧
        ∀ k, k < tbl.length → out.get? k = a.get? (tbl.getD k 0) := by
  intro tbl
  induction tbl with
  | nil => intro _; exact ⟨[], rfl, rfl, fun k hk => by simp at hk⟩
  | cons i rest ih =>
    intro hall
    have hi : i < a.length := hall i (by simp)
    obtain ⟨v, hv⟩ : ∃ v, a[i]? = some v := ⟨_, List.getElem?_eq_getElem hi⟩
    have happ : (a ++ b)[i]? = some v := by
      rw [List.getElem?_append, if_pos hi]; exact hv
    obtain ⟨out, hout, hlen, hspec⟩ := ih (fun k hk => hall k (by simp [hk]))
    refine ⟨v :: out, ?_, by simp [hlen], ?_⟩
    · simp [simdShuffle, hout, happ]
    · intro k hk
      cases k with
      | zero => simp [hv]
      | succ j =>
        simp only [List.getD_cons_succ, List.get?_cons_succ]
        exact hspec j (by simpa using hk)

/-- C4: an index table referencing a source lane at or above the input
lane count makes `Swizzle` / `Swizzle2` const evaluation fail before any
vector operation executes (no read happens, as the shuffle primitive is
never reached); and for an everywhere-in-range table, lane `i` of the
swizzle output is lane `INDEX[i]` of the input vector. -/
theorem swizzle_bounds_checked {α β : Type} (v : List α) (index : List Nat)
    (a b : List β) (index2 : List Which) :
    ((∃ i ∈ index, v.length ≤ i) →
      indexImpl v.length index = none ∧ swizzleRun v index = none) ∧
    ((∃ w ∈ index2, a.length ≤ w.sourceIndex) →
      index2Impl a.length index2 = none ∧ swizzle2Run a b index2 = none) ∧
    ((∀ i ∈ index, i < v.length) → v.length ≤ 2 ^ 32 →
      ∃ out, swizzleRun v index = some out ∧ out.length = index.length ∧
        ∀ k, k < index.length → out.get? k = v.get? (index.getD k 0)) := by
  refine ⟨?_, ?_, ?_⟩
  · intro hbad
    have hni := indexImpl_oob index hbad
    exact ⟨hni, by simp [swizzleRun, hni]⟩
  · intro hbad
    have hni := index2Impl_oob index2 hbad
    exact ⟨hni, by simp [swizzle2Run, hni]⟩
  · intro hall h32
    have hid := indexImpl_ok h32 index hall
    obtain ⟨out, hout, hlen, hspec⟩ := simdShuffle_spec v v index hall
    exact ⟨out, by simp [swizzleRun, hid, hout], hlen, hspec⟩

/-- Validity predicate characterization: `Sealed::valid` accepts exactly
the sentinel vectors whose every lane is `0` or `-1`. -/
theorem valid_iff (v : List Int) : valid v = true ↔ ∀ x ∈ v, x = 0 ∨ x = -1 := by
  induction v with
  | nil => simp [valid, allLanes, maskOr, simdEqInt]
  | cons x xs ih =>
    have hv : valid (x :: xs) = ((decide (x = 0) || decide (x = -1)) && valid xs) := rfl
    rw [hv]
    simp only [Bool.and_eq_true, Bool.or_eq_true, decide_eq_true_eq, ih,
      List.mem_cons]
    constructor
    · rintro ⟨hx, hxs⟩ y (rfl | hy)
      · exact hx
      · exact hxs y hy
    · intro h
      exact ⟨h x (Or.inl rfl), fun y hy => h y (Or.inr hy)⟩

/-- Bitwise AND keeps sentinel lanes sentinel. -/
theorem sentinel_land (x y : Int) (hx : x = 0 ∨ x = -1) (hy : y = 0 ∨ y = -1) :
    Int.land x y = 0 ∨ Int.land x y = -1 := by
  rcases hx with rfl | rfl <;> rcases hy with rfl | rfl
  · left; simp [Int.land, Nat.land]
  · left
    show Int.land (Int.ofNat 0) (Int.negSucc 0) = 0
    simp [Int.land, Nat.ldiff, Nat.bitwise_zero]
  · left
    show Int.land (Int.negSucc 0) (Int.ofNat 0) = 0
    simp [Int.land, Nat.ldiff, Nat.bitwise_zero]
  · right
    show Int.land (Int.negSucc 0) (Int.negSucc 0) = -1
    simp [Int.land, Nat.lor]

/-- Bitwise OR keeps sentinel lanes sentinel. -/
theorem sentinel_lor (x y : Int) (hx : x = 0 ∨ x = -1) (hy : y = 0 ∨ y = -1) :
    Int.lor x y = 0 ∨ Int.lor x y = -1 := by
  rcases hx with rfl | rfl <;> rcases hy with rfl | rfl
  · left; simp [Int.lor, Nat.lor]
  · right
    show Int.lor (Int.ofNat 0) (Int.negSucc 0) = -1
    simp [Int.lor, Nat.ldiff, Nat.bitwise_zero]
  · right
    show Int.lor (Int.negSucc 0) (Int.ofNat 0) = -1
    simp [Int.lor, Nat.ldiff, Nat.bitwise_zero]
  · right
    show Int.lor (Int.negSucc 0) (Int.negSucc 0) = -1
    simp [Int.lor, Nat.land]

/-- Bitwise XOR keeps sentinel lanes sentinel. -/
theorem sentinel_lxor (x y : Int) (hx : x = 0 ∨ x = -1) (hy : y = 0 ∨ y = -1) :
    Int.xor x y = 0 ∨ Int.xor x y = -1 := by
  rcases hx with rfl | rfl <;> rcases hy with rfl | rfl
  · left; simp [Int.xor, Nat.xor]
  · right
    show Int.xor (Int.ofNat 0) (Int.negSucc 0) = -1
    simp [Int.xor]
  · right
    show Int.xor (Int.negSucc 0) (Int.ofNat 0) = -1
    simp [Int.xor]
  · left
    show Int.xor (Int.negSucc 0) (Int.negSucc 0) = 0
    simp [Int.xor]

/-- C8: the validity predicate accepts exactly the sentinel vectors whose
every lane is all-bits-one or all-bits-zero, and every full-width mask
produced by a safe operation — splat, `from_array`, a comparison result,
a lanewise boolean operation on valid masks, or a checked per-lane set —
satisfies it; only the unchecked constructor (the identity
`from_int_unchecked`) can carry an arbitrary vector past this predicate. -/
theorem mask_validity_invariant :
    (∀ v : List Int, valid v = true ↔ ∀ x ∈ v, x = 0 ∨ x = -1) ∧
    (∀ (lanes : Nat) (b : Bool), valid (maskSplatInt lanes b) = true) ∧
    (∀ bl : List Bool, valid (maskFromArrayInt bl) = true) ∧
    (∀ a b : List Int, valid (simdLtInt a b) = true) ∧
    (∀ m1 m2 : List Int, valid m1 = true → valid m2 = true →
      valid (maskLand m1 m2) = true ∧ valid (maskLor m1 m2) = true ∧
      valid (maskLxor m1 m2) = true) ∧
    (∀ m : List Int, valid m = true → valid (maskLnot m) = true) ∧
    (∀ (m : List Int) (lane : Nat) (b : Bool) (m2 : List Int),
      valid m = true → maskSet m lane b = some m2 → valid m2 = true) := by
  refine ⟨valid_iff, ?_, ?_, ?_, ?_, ?_, ?_⟩
  · intro lanes b
    rw [valid_iff]
    intro x hx
    rw [List.eq_of_mem_replicate hx]
    cases b <;> simp
  · intro bl
    rw [valid_iff]
    intro x hx
    simp only [maskFromArrayInt, List.mem_map] at hx
    obtain ⟨byte, _, hbyte⟩ := hx
    by_cases h : byte ≠ 0 <;> simp [h] at hbyte <;> omega
  · intro a b
    rw [valid_iff]
    refine mem_zipWith_of_closure (A := fun _ => True) (B := fun _ => True) ?_ a b
      (fun _ _ => trivial) (fun _ _ => trivial)
    intro x y _ _
    dsimp only
    split
    · right; rfl
    · left; rfl
  · intro m1 m2 h1 h2
    rw [valid_iff] at h1 h2
    refine ⟨?_, ?_, ?_⟩ <;> rw [valid_iff]
    · exact mem_zipWith_of_closure sentinel_land m1 m2 h1 h2
    · exact mem_zipWith_of_closure sentinel_lor m1 m2 h1 h2
    · exact mem_zipWith_of_closure sentinel_lxor m1 m2 h1 h2
  · intro m hm
    rw [valid_iff] at hm ⊢
    intro x hx
    simp only [maskLnot, List.mem_map] at hx
    obtain ⟨y, hy, hyx⟩ := hx
    rcases hm y hy with rfl | rfl
    · right; rw [← hyx]; rfl
    · left; rw [← hyx]; rfl
  · intro m lane b m2 hm hset
    rw [valid_iff] at hm ⊢
    simp only [maskSet] at hset
    by_cases hl : lane < m.length
    · rw [if_pos hl] at hset
      cases hset
      intro x hx
      rcases List.mem_or_eq_of_mem_set hx with hx2 | rfl
      · exact hm x hx2
      · cases b <;> simp
    · rw [if_neg hl] at hset
      cases hset

end PortableSimd
